import Mathlib

/-!
Verification of the tree-pro structural fingerprinting and grouping engine
(internal/walker.go, internal/detect.go), shallowly embedded in Lean.

Modelling conventions:
* Go byte strings become `List Nat` of byte values; `String` stands for Go
  strings, encoded to bytes by UTF-8 (`strBytes`).
* 64-bit unsigned arithmetic of `hash/fnv` is `Nat` arithmetic reduced
  `% 2 ^ 64` at every step.
* The filesystem snapshot seen by `os.ReadDir` is an `FSEntry` tree; a
  directory whose read fails is `FSEntry.dirErr`.
* `walkDir` takes a fuel argument so that it is structurally recursive; fuel
  larger than the tree depth never runs out, and running out of fuel yields a
  zero node.  Error handling never consumes fuel.
-/

/-- Lexicographic comparison of char lists by code point.  For valid UTF-8
this coincides with Go's byte-wise string order used by `sort.Strings` and
`sort.Slice` on names. -/
def lexLe : List Char → List Char → Bool
  | [], _ => true
  | _ :: _, [] => false
  | a :: as, b :: bs =>
    if a.toNat < b.toNat then true
    else if b.toNat < a.toNat then false
    else lexLe as bs

/-- Go string `<=`, as used to sort directory entries and signature keys. -/
def nameLe (a b : String) : Bool := lexLe a.data b.data

/-- UTF-8 encoding of one character, as byte values. -/
def charBytes (c : Char) : List Nat :=
  let n := c.toNat
  if n < 0x80 then [n]
  else if n < 0x800 then
    [0xC0 ||| (n >>> 6), 0x80 ||| (n &&& 0x3F)]
  else if n < 0x10000 then
    [0xE0 ||| (n >>> 12), 0x80 ||| ((n >>> 6) &&& 0x3F), 0x80 ||| (n &&& 0x3F)]
  else
    [0xF0 ||| (n >>> 18), 0x80 ||| ((n >>> 12) &&& 0x3F),
     0x80 ||| ((n >>> 6) &&& 0x3F), 0x80 ||| (n &&& 0x3F)]

/-- The bytes of a Go string (UTF-8). -/
def strBytes (s : String) : List Nat := (s.data.map charBytes).flatten

/-- FNV-1a 64-bit offset basis (`hash/fnv.New64a`). -/
def fnvOffset : Nat := 14695981039346656037

/-- FNV-1a 64-bit prime. -/
def fnvPrime : Nat := 1099511628211

/-- One FNV-1a update step: xor the byte in, multiply by the prime, in
64-bit arithmetic. -/
def fnvStep (h b : Nat) : Nat := ((h ^^^ b) * fnvPrime) % 2 ^ 64

/-- `fnv.New64a` digest of a byte sequence (`Write` all bytes, `Sum64`). -/
def fnv64 (bytes : List Nat) : Nat := bytes.foldl fnvStep fnvOffset

/-- Lowercase hex rendering of a `Nat`, i.e. Go's `%x` on a `uint64`. -/
def hexStr (n : Nat) : String := String.mk (Nat.toDigits 16 n)

/-- `intToBytes` from walker.go: the 8 little-endian bytes of
`uint64(v)` (`binary.LittleEndian.PutUint64`). -/
def intToBytes (v : Nat) : List Nat :=
  [v % 256, v / 2 ^ 8 % 256, v / 2 ^ 16 % 256, v / 2 ^ 24 % 256,
   v / 2 ^ 32 % 256, v / 2 ^ 40 % 256, v / 2 ^ 48 % 256, v / 2 ^ 56 % 256]

/-- Category of a failed directory read, as the walker can observe it:
permission denied, not found, or some other error.  `typeName` of `other`
records the Go dynamic type printed by `%T`. -/
inductive FSError where
  | permission
  | notFound
  | other (typeName : String)
deriving DecidableEq

/-- The Go dynamic type of the error, as printed by `fmt.Sprintf("%T", err)`.
`os.ReadDir` failures are `*fs.PathError` values regardless of errno. -/
def FSError.goType : FSError → String
  | .permission => "*fs.PathError"
  | .notFound => "*fs.PathError"
  | .other t => t

/-- One entry of the filesystem snapshot: a plain file, a readable directory
with its entries, or a directory whose read fails. -/
inductive FSEntry where
  | file (name : String)
  | dirOk (name : String) (entries : List FSEntry)
  | dirErr (name : String) (e : FSError)

/-- `entry.Name()`. -/
def FSEntry.name : FSEntry → String
  | .file n => n
  | .dirOk n _ => n
  | .dirErr n _ => n

/-- `entry.IsDir()`. -/
def FSEntry.isDir : FSEntry → Bool
  | .file _ => false
  | .dirOk _ _ => true
  | .dirErr _ _ => true

/-- Result of `os.ReadDir` on a directory: its entry list, or a failure. -/
inductive FSRead where
  | ok (entries : List FSEntry)
  | fail (e : FSError)

/-- What `os.ReadDir` returns for a directory entry. -/
def FSEntry.readData : FSEntry → FSRead
  | .file _ => .ok []
  | .dirOk _ entries => .ok entries
  | .dirErr _ e => .fail e

mutual
/-- Nesting depth of one snapshot entry (0 for files and unreadable dirs). -/
def FSEntry.depth : FSEntry → Nat
  | .file _ => 0
  | .dirErr _ _ => 0
  | .dirOk _ entries => FSEntry.depthList entries + 1
/-- Maximum depth over a list of entries. -/
def FSEntry.depthList : List FSEntry → Nat
  | [] => 0
  | e :: es => max (FSEntry.depth e) (FSEntry.depthList es)
end

/-- `Options` from walker.go.  The CLI validates both as non-negative, so we
use `Nat`; 0 means unlimited for both. -/
structure Options where
  maxFiles : Nat
  maxLevel : Nat
deriving DecidableEq

/-- `FileEntry` from walker.go. -/
structure FileEntry where
  name : String
deriving DecidableEq

/-- `Directory` from walker.go.  A nested inductive because `structure`
cannot be recursive. -/
inductive Directory where
  | mk (name path : String) (level : Nat) (subdirs : List Directory)
       (files : List FileEntry) (hiddenFiles : Nat)
       (immediateDirCount immediateFileCount totalDirs totalFiles : Nat)
       (signature : String) (err : Option FSError)

def Directory.name : Directory → String
  | .mk n _ _ _ _ _ _ _ _ _ _ _ => n

def Directory.path : Directory → String
  | .mk _ p _ _ _ _ _ _ _ _ _ _ => p

def Directory.level : Directory → Nat
  | .mk _ _ l _ _ _ _ _ _ _ _ _ => l

def Directory.subdirs : Directory → List Directory
  | .mk _ _ _ s _ _ _ _ _ _ _ _ => s

def Directory.files : Directory → List FileEntry
  | .mk _ _ _ _ f _ _ _ _ _ _ _ => f

def Directory.hiddenFiles : Directory → Nat
  | .mk _ _ _ _ _ h _ _ _ _ _ _ => h

def Directory.immediateDirCount : Directory → Nat
  | .mk _ _ _ _ _ _ d _ _ _ _ _ => d

def Directory.immediateFileCount : Directory → Nat
  | .mk _ _ _ _ _ _ _ f _ _ _ _ => f

def Directory.totalDirs : Directory → Nat
  | .mk _ _ _ _ _ _ _ _ t _ _ _ => t

def Directory.totalFiles : Directory → Nat
  | .mk _ _ _ _ _ _ _ _ _ t _ _ => t

def Directory.signature : Directory → String
  | .mk _ _ _ _ _ _ _ _ _ _ s _ => s

def Directory.err : Directory → Option FSError
  | .mk _ _ _ _ _ _ _ _ _ _ _ e => e

/-- `IsPermissionError` from walker.go: `errors.Is(d.Err, fs.ErrPermission)`.
(The nil-receiver guard of the Go method is irrelevant here: values are not
pointers.) -/
def Directory.IsPermissionError (d : Directory) : Bool :=
  match d.err with
  | some .permission => true
  | _ => false

/-- `sort.Strings`: sort strings in byte order. -/
def sortStrings (l : List String) : List String :=
  List.insertionSort (fun a b => nameLe a b = true) l

/-- The `sort.Slice` call of `walkDir`: order entries by name.  Directory
entries of one directory have pairwise distinct names, for which any
comparison sort produces this unique sorted sequence. -/
def sortEntries (entries : List FSEntry) : List FSEntry :=
  List.insertionSort (fun a b => nameLe a.name b.name = true) entries

/-- Lookup in the extension histogram (`fileExtCounts[ext]`; 0 if absent). -/
def histGet : List (String × Nat) → String → Nat
  | [], _ => 0
  | (k, v) :: rest, e => if k = e then v else histGet rest e

/-- `fileExtCounts[ext]++`: bump the count of one extension.  The Go map is
unordered; we keep first-insertion order, which is irrelevant because
`signatureForDirectory` sorts the keys. -/
def histAdd : List (String × Nat) → String → List (String × Nat)
  | [], e => [(e, 1)]
  | (k, v) :: rest, e =>
    if k = e then (k, v + 1) :: rest else (k, v) :: histAdd rest e

/-- Add a batch of extension keys to a histogram, left to right. -/
def histAddAll (h : List (String × Nat)) (keys : List String) : List (String × Nat) :=
  keys.foldl histAdd h

/-- The byte stream `signatureForDirectory` feeds to the FNV digest:
`"files:"`, then each sorted extension as `ext 0x00 count⟨8 bytes LE⟩`, then
`"dirs:"`, then each sorted child signature as `sig 0x00`. -/
def dirSigBytes (fileExtCounts : List (String × Nat)) (childSigs : List String) : List Nat :=
  strBytes "files:"
    ++ ((sortStrings (fileExtCounts.map Prod.fst)).map
          (fun ext => strBytes ext ++ [0] ++ intToBytes (histGet fileExtCounts ext))).flatten
    ++ strBytes "dirs:"
    ++ ((sortStrings childSigs).map (fun sig => strBytes sig ++ [0])).flatten

/-- `signatureForDirectory` from walker.go: FNV-1a-64 over the delimited
byte encoding of the sorted (extension, count) pairs and sorted child
signatures, rendered as `d:%x`. -/
def signatureForDirectory (fileExtCounts : List (String × Nat)) (subdirs : List Directory) : String :=
  "d:" ++ hexStr (fnv64 (dirSigBytes fileExtCounts (subdirs.map Directory.signature)))

/-- `signatureForLeaf` from walker.go: FNV-1a-64 of `"leaf:" ++ path`,
rendered as `l:%x`; the signature of a depth-truncated marker node. -/
def signatureForLeaf (path : String) : String :=
  "l:" ++ hexStr (fnv64 (strBytes "leaf:" ++ strBytes path))

/-- `signatureForError` from walker.go: `fmt.Sprintf("err:%s:%T", path, err)`. -/
def signatureForError (path : String) (e : FSError) : String :=
  "err:" ++ path ++ ":" ++ e.goType

/-- `filepath.Ext`: the suffix from the final dot of the name; empty when the
name has no dot.  The scan stops at a path separator. -/
def extOfAux : List Char → List Char → String
  | [], _ => ""
  | c :: rest, acc =>
    if c = '/' then ""
    else if c = '.' then String.mk ('.' :: acc)
    else extOfAux rest (c :: acc)

def extOf (name : String) : String := extOfAux name.data.reverse []

/-- `strings.ToLower`, modelled per character (faithful for ASCII names). -/
def toLowerStr (s : String) : String := String.mk (s.data.map Char.toLower)

/-- The histogram key of one file name: lowercased extension, with the
`<noext>` sentinel for extension-less names. -/
def extKey (filename : String) : String :=
  let ext := toLowerStr (extOf filename)
  if ext = "" then "<noext>" else ext

/-- `filepath.Join(path, name)` for the clean relative paths the walker
builds. -/
def joinPath (path name : String) : String := path ++ "/" ++ name

/-- The node `walkDir` returns when `os.ReadDir` fails: error, error-derived
signature, and all other fields zero. -/
def errorNode (path name : String) (level : Nat) (e : FSError) : Directory :=
  .mk name path level [] [] 0 0 0 0 0 (signatureForError path e) (some e)

/-- The leaf-of-unknown-contents marker recorded when the depth limit stops
descent: name, path, level and a path-derived signature only. -/
def leafNode (path name : String) (level : Nat) : Directory :=
  .mk name path level [] [] 0 0 0 0 0 (signatureForLeaf path) none

/-- Whether the next file is retained in the display list: Go computes
`maxFiles = math.MaxInt` when `opts.MaxFiles <= 0` and retains while
`len(files) < maxFiles`; a Go slice is always shorter than `math.MaxInt`,
so `maxFiles = 0` simply always retains. -/
def retainFile (maxFiles : Nat) (files : List FileEntry) : Bool :=
  maxFiles == 0 || files.length < maxFiles

/-- Accumulator of the entry loop of `walkDir`. -/
structure WalkAcc where
  exts : List (String × Nat)
  files : List FileEntry
  hiddenFiles : Nat
  subdirs : List Directory

/-- The node built for one subdirectory entry: a leaf marker once
`opts.MaxLevel != 0 && level >= opts.MaxLevel`, otherwise the recursive walk
(`walkSub` is the recursive call at the child's path and level). -/
def childOf (walkSub : String → String → Nat → FSRead → Directory)
    (opts : Options) (path : String) (level : Nat) (e : FSEntry) : Directory :=
  if opts.maxLevel ≠ 0 ∧ level ≥ opts.maxLevel then
    leafNode (joinPath path e.name) e.name (level + 1)
  else
    walkSub (joinPath path e.name) e.name (level + 1) e.readData

/-- One iteration of the entry loop of `walkDir`. -/
def walkStep (walkSub : String → String → Nat → FSRead → Directory)
    (opts : Options) (path : String) (level : Nat) (acc : WalkAcc) (e : FSEntry) : WalkAcc :=
  if e.isDir then
    { acc with subdirs := acc.subdirs ++ [childOf walkSub opts path level e] }
  else
    let acc1 := { acc with exts := histAdd acc.exts (extKey e.name) }
    if retainFile opts.maxFiles acc1.files then
      { acc1 with files := acc1.files ++ [⟨e.name⟩] }
    else
      { acc1 with hiddenFiles := acc1.hiddenFiles + 1 }

/-- The entry loop of `walkDir` over an already sorted entry list. -/
def walkList (walkSub : String → String → Nat → FSRead → Directory)
    (opts : Options) (path : String) (level : Nat) (acc : WalkAcc) : List FSEntry → WalkAcc
  | [] => acc
  | e :: rest => walkList walkSub opts path level (walkStep walkSub opts path level acc e) rest

/-- `walkDir` from walker.go.  A failed read yields `errorNode` (this never
consumes fuel, exactly as in Go, where no recursion happens there); otherwise
entries are sorted by name, the loop accumulates histogram, retained files,
hidden count and child nodes, and the node is assembled with aggregated
totals and its directory signature. -/
def walkDir : Nat → Options → String → String → Nat → FSRead → Directory
  | _, _, path, name, level, .fail e => errorNode path name level e
  | 0, _, path, name, level, .ok _ =>
    .mk name path level [] [] 0 0 0 0 0 "" none
  | fuel + 1, opts, path, name, level, .ok entries =>
    let acc := walkList (walkDir fuel opts) opts path level ⟨[], [], 0, []⟩ (sortEntries entries)
    Directory.mk name path level acc.subdirs acc.files acc.hiddenFiles
      acc.subdirs.length (acc.files.length + acc.hiddenFiles)
      (acc.subdirs.length + (acc.subdirs.map Directory.totalDirs).sum)
      (acc.files.length + acc.hiddenFiles + (acc.subdirs.map Directory.totalFiles).sum)
      (signatureForDirectory acc.exts acc.subdirs) none

/-- What `os.Stat` finds at the root path. -/
inductive RootFS where
  | statErr (e : FSError)
  | notDir
  | dir (read : FSRead)

/-- The errors `Walk` can return. -/
inductive WalkError where
  | statFailed (e : FSError)
  | notADirectory (path : String)
  | readFailed (e : FSError)

/-- `Walk` from walker.go: fail when the root cannot be stat'ed or is not a
directory; walk it otherwise, and fail when the root itself could not be
read (`root.Err != nil`). -/
def Walk (fuel : Nat) (path name : String) (opts : Options) : RootFS → Except WalkError Directory
  | .statErr e => .error (.statFailed e)
  | .notDir => .error (.notADirectory path)
  | .dir read =>
    let root := walkDir fuel opts path name 0 read
    match root.err with
    | some e => .error (.readFailed e)
    | none => .ok root

/-- `DirGroup` from detect.go. -/
structure DirGroup where
  signature : String
  members : List Directory

/-- `fallbackSignature` from detect.go. -/
def fallbackSignature (d : Directory) : String :=
  "name:" ++ d.name ++ ":level:" ++ toString d.level

/-- The grouping key of a node: its signature, or the defensive fallback
when the signature is empty. -/
def sigOf (d : Directory) : String :=
  if d.signature = "" then fallbackSignature d else d.signature

/-- `grouped[sig] = append(grouped[sig], dir)` on the model of the Go map:
an association list from signature to bucket. -/
def bucketAdd : List (String × List Directory) → String → Directory → List (String × List Directory)
  | [], sig, d => [(sig, [d])]
  | (k, ds) :: rest, sig, d =>
    if k = sig then (k, ds ++ [d]) :: rest else (k, ds) :: bucketAdd rest sig d

/-- `grouped[sig]` (the empty bucket when absent). -/
def bucketGet : List (String × List Directory) → String → List Directory
  | [], _ => []
  | (k, ds) :: rest, sig => if k = sig then ds else bucketGet rest sig

/-- `_, seen := grouped[sig]`. -/
def hasBucket (grouped : List (String × List Directory)) (sig : String) : Bool :=
  grouped.any (fun kv => kv.1 == sig)

/-- The loop of `GroupIdentical`: skip nil pointers, record each signature
in `order` on first sight, and append the directory to its bucket. -/
def groupFold (st : List (String × List Directory) × List String) :
    List (Option Directory) → List (String × List Directory) × List String
  | [] => st
  | none :: rest => groupFold st rest
  | some d :: rest =>
    let sig := sigOf d
    let order := if hasBucket st.1 sig then st.2 else st.2 ++ [sig]
    groupFold (bucketAdd st.1 sig d, order) rest

/-- `GroupIdentical` from detect.go.  The input carries `Option` because the
Go slice holds pointers that may be nil. -/
def GroupIdentical (dirs : List (Option Directory)) : List DirGroup :=
  let st := groupFold ([], []) dirs
  st.2.map (fun sig => ⟨sig, bucketGet st.1 sig⟩)

/-- The distinct elements of a list in order of first occurrence. -/
def firstSeenFrom (seen : List String) : List String → List String
  | [] => []
  | s :: rest =>
    if s ∈ seen then firstSeenFrom seen rest
    else s :: firstSeenFrom (s :: seen) rest

def firstSeen (l : List String) : List String := firstSeenFrom [] l

/-- All scalar data of one node, plus the sums of its children's totals;
the flattened form in which whole-tree statements are phrased. -/
structure NodeView where
  name : String
  path : String
  level : Nat
  subdirCount : Nat
  fileNames : List String
  hiddenFiles : Nat
  immediateDirCount : Nat
  immediateFileCount : Nat
  totalDirs : Nat
  totalFiles : Nat
  signature : String
  err : Option FSError
  childTotalDirs : Nat
  childTotalFiles : Nat
deriving DecidableEq

/-- The view of one node. -/
def Directory.view (d : Directory) : NodeView :=
  ⟨d.name, d.path, d.level, d.subdirs.length, d.files.map FileEntry.name,
   d.hiddenFiles, d.immediateDirCount, d.immediateFileCount, d.totalDirs,
   d.totalFiles, d.signature, d.err,
   (d.subdirs.map Directory.totalDirs).sum, (d.subdirs.map Directory.totalFiles).sum⟩

mutual
/-- Preorder flattening of a tree into node views. -/
def flatten : Directory → List NodeView
  | .mk name path level subdirs files hidden idc ifc td tf sig err =>
    (Directory.mk name path level subdirs files hidden idc ifc td tf sig err).view
      :: flattenList subdirs
/-- Flattening of a forest. -/
def flattenList : List Directory → List NodeView
  | [] => []
  | d :: ds => flatten d ++ flattenList ds
end

/-- A node view without the display-limited fields (`files`, `hiddenFiles`):
what must be insensitive to the per-directory file display limit. -/
structure ShapeView where
  name : String
  path : String
  level : Nat
  subdirCount : Nat
  immediateDirCount : Nat
  immediateFileCount : Nat
  totalDirs : Nat
  totalFiles : Nat
  signature : String
  err : Option FSError
deriving DecidableEq

def NodeView.shape (v : NodeView) : ShapeView :=
  ⟨v.name, v.path, v.level, v.subdirCount, v.immediateDirCount,
   v.immediateFileCount, v.totalDirs, v.totalFiles, v.signature, v.err⟩

mutual
/-- Erase the display-limited fields (retained file list, hidden count) of
every node of a tree. -/
def stripD : Directory → Directory
  | .mk name path level subdirs _ _ idc ifc td tf sig err =>
    .mk name path level (stripDList subdirs) [] 0 idc ifc td tf sig err
def stripDList : List Directory → List Directory
  | [] => []
  | d :: ds => stripD d :: stripDList ds
end

/-- Names of the file (non-directory) entries, in order. -/
def fileNames (es : List FSEntry) : List String :=
  (es.filter (fun e => !e.isDir)).map FSEntry.name

/-- Histogram keys of the file entries, in order. -/
def extKeys (es : List FSEntry) : List String :=
  (es.filter (fun e => !e.isDir)).map (fun e => extKey e.name)

/-- The loop state after processing all (sorted) entries of one directory. -/
def walkAcc (fuel : Nat) (opts : Options) (path : String) (level : Nat)
    (entries : List FSEntry) : WalkAcc :=
  walkList (walkDir fuel opts) opts path level ⟨[], [], 0, []⟩ (sortEntries entries)

/-- The extension `.aaa…a` with `k` letters `a`. -/
def dotsA (k : Nat) : String := String.mk ('.' :: List.replicate k 'a')

/-- The walked directory holding exactly one file `f.aaa…a`. -/
def oneFileDir (k : Nat) : Directory :=
  walkDir 1 ⟨0, 0⟩ "r" "r" 0 (.ok [.file ("f" ++ dotsA k)])

/-- A sibling directory node with a fixed signature, for concrete grouping
scenarios. -/
def exDir (n sig : String) : Directory := .mk n n 0 [] [] 0 0 0 0 0 sig none

theorem lexLe_total (as bs : List Char) : lexLe as bs = true ∨ lexLe bs as = true := by
  induction as generalizing bs with
  | nil => left; rfl
  | cons a as ih =>
    cases bs with
    | nil => right; rfl
    | cons b bs =>
      by_cases h1 : a.toNat < b.toNat
      · left; simp [lexLe, h1]
      · by_cases h2 : b.toNat < a.toNat
        · right; simp [lexLe, h2]
        · rcases ih bs with h | h
          · left; simp [lexLe, h1, h2, h]
          · right; simp [lexLe, h1, h2, h]

theorem lexLe_trans {as bs cs : List Char} (h1 : lexLe as bs = true)
    (h2 : lexLe bs cs = true) : lexLe as cs = true := by
  induction as generalizing bs cs with
  | nil => rfl
  | cons a as ih =>
    cases bs with
    | nil => simp [lexLe] at h1
    | cons b bs =>
      cases cs with
      | nil => simp [lexLe] at h2
      | cons c cs =>
        simp only [lexLe] at h1 h2 ⊢
        rcases Nat.lt_trichotomy a.toNat b.toNat with hab | hab | hab
        · rcases Nat.lt_trichotomy b.toNat c.toNat with hbc | hbc | hbc
          · have hac : a.toNat < c.toNat := by omega
            simp [hac]
          · have hac : a.toNat < c.toNat := by omega
            simp [hac]
          · have h3 : ¬ b.toNat < c.toNat := by omega
            simp [h3, hbc] at h2
        · have hne1 : ¬ a.toNat < b.toNat := by omega
          have hne2 : ¬ b.toNat < a.toNat := by omega
          simp [hne1, hne2] at h1
          rcases Nat.lt_trichotomy b.toNat c.toNat with hbc | hbc | hbc
          · have hac : a.toNat < c.toNat := by omega
            simp [hac]
          · have g1 : ¬ a.toNat < c.toNat := by omega
            have g2 : ¬ c.toNat < a.toNat := by omega
            have h3 : ¬ b.toNat < c.toNat := by omega
            have h4 : ¬ c.toNat < b.toNat := by omega
            simp [h3, h4] at h2
            simp [g1, g2]
            exact ih h1 h2
          · have h3 : ¬ b.toNat < c.toNat := by omega
            simp [h3, hbc] at h2
        · have h3 : ¬ a.toNat < b.toNat := by omega
          simp [h3, hab] at h1

theorem lexLe_antisymm {as bs : List Char} (h1 : lexLe as bs = true)
    (h2 : lexLe bs as = true) : as = bs := by
  induction as generalizing bs with
  | nil =>
    cases bs with
    | nil => rfl
    | cons b bs => simp [lexLe] at h2
  | cons a as ih =>
    cases bs with
    | nil => simp [lexLe] at h1
    | cons b bs =>
      simp only [lexLe] at h1 h2
      by_cases hab : a.toNat < b.toNat <;> by_cases hba : b.toNat < a.toNat <;>
        simp [hab, hba] at h1 h2
      · omega
      · have hn : a.toNat = b.toNat := by omega
        have ha : a = b := by
          have := Char.ofNat_toNat a
          rw [hn] at this
          rw [← this, Char.ofNat_toNat]
        rw [ha, ih h1 h2]

theorem nameLe_total (a b : String) : nameLe a b = true ∨ nameLe b a = true :=
  lexLe_total a.data b.data

theorem nameLe_trans {a b c : String} (h1 : nameLe a b = true) (h2 : nameLe b c = true) :
    nameLe a c = true := lexLe_trans h1 h2

theorem nameLe_antisymm {a b : String} (h1 : nameLe a b = true) (h2 : nameLe b a = true) :
    a = b := by
  cases a with
  | mk da =>
    cases b with
    | mk db => exact congrArg String.mk (lexLe_antisymm h1 h2)

instance : IsTotal String (fun a b => nameLe a b = true) := ⟨nameLe_total⟩

instance : IsTrans String (fun a b => nameLe a b = true) :=
  ⟨fun _ _ _ => nameLe_trans⟩

instance : IsAntisymm String (fun a b => nameLe a b = true) :=
  ⟨fun _ _ => nameLe_antisymm⟩

instance : IsTotal FSEntry (fun a b => nameLe a.name b.name = true) :=
  ⟨fun a b => nameLe_total a.name b.name⟩

instance : IsTrans FSEntry (fun a b => nameLe a.name b.name = true) :=
  ⟨fun _ _ _ => nameLe_trans⟩

theorem sortStrings_perm (l : List String) : (sortStrings l).Perm l :=
  List.perm_insertionSort _ l

theorem sortStrings_sorted (l : List String) :
    List.Sorted (fun a b => nameLe a b = true) (sortStrings l) :=
  List.sorted_insertionSort _ l

theorem sortStrings_congr {l₁ l₂ : List String} (h : l₁.Perm l₂) :
    sortStrings l₁ = sortStrings l₂ :=
  List.eq_of_perm_of_sorted
    (((sortStrings_perm l₁).trans h).trans (sortStrings_perm l₂).symm)
    (sortStrings_sorted l₁) (sortStrings_sorted l₂)

theorem sortEntries_perm (l : List FSEntry) : (sortEntries l).Perm l :=
  List.perm_insertionSort _ l

theorem sortEntries_sorted (l : List FSEntry) :
    List.Sorted (fun a b => nameLe a.name b.name = true) (sortEntries l) :=
  List.sorted_insertionSort _ l

theorem walkList_subdirs (w : String → String → Nat → FSRead → Directory)
    (opts : Options) (path : String) (level : Nat) (acc : WalkAcc) (es : List FSEntry) :
    (walkList w opts path level acc es).subdirs =
      acc.subdirs ++ (es.filter FSEntry.isDir).map (childOf w opts path level) := by
  induction es generalizing acc with
  | nil => simp [walkList]
  | cons e rest ih =>
    simp only [walkList]
    rw [ih]
    cases hd : e.isDir <;>
      simp [walkStep, hd, retainFile] <;> split <;> simp

theorem walkList_exts (w : String → String → Nat → FSRead → Directory)
    (opts : Options) (path : String) (level : Nat) (acc : WalkAcc) (es : List FSEntry) :
    (walkList w opts path level acc es).exts = histAddAll acc.exts (extKeys es) := by
  induction es generalizing acc with
  | nil => simp [walkList, extKeys, histAddAll]
  | cons e rest ih =>
    simp only [walkList]
    rw [ih]
    cases hd : e.isDir <;>
      simp [walkStep, hd, retainFile, extKeys, histAddAll] <;> split <;> simp

theorem walkList_count (w : String → String → Nat → FSRead → Directory)
    (opts : Options) (path : String) (level : Nat) (acc : WalkAcc) (es : List FSEntry) :
    (walkList w opts path level acc es).files.length + (walkList w opts path level acc es).hiddenFiles =
      acc.files.length + acc.hiddenFiles + (fileNames es).length := by
  induction es generalizing acc with
  | nil => simp [walkList, fileNames]
  | cons e rest ih =>
    simp only [walkList]
    rw [ih]
    cases hd : e.isDir
    · simp only [walkStep, hd, Bool.false_eq_true, if_false, fileNames, List.filter_cons,
        Bool.not_false, if_true]
      split <;> simp [fileNames] <;> omega
    · simp [walkStep, hd, fileNames]

theorem walkList_files_unlimited (w : String → String → Nat → FSRead → Directory)
    (opts : Options) (path : String) (level : Nat) (acc : WalkAcc) (es : List FSEntry)
    (h : opts.maxFiles = 0) :
    (walkList w opts path level acc es).files =
        acc.files ++ (fileNames es).map (⟨·⟩) ∧
      (walkList w opts path level acc es).hiddenFiles = acc.hiddenFiles := by
  induction es generalizing acc with
  | nil => simp [walkList, fileNames]
  | cons e rest ih =>
    simp only [walkList]
    cases hd : e.isDir
    · have : retainFile opts.maxFiles acc.files = true := by simp [retainFile, h]
      simp only [walkStep, hd, Bool.false_eq_true, if_false]
      rw [if_pos (by simp [retainFile, h])]
      rcases ih _ with ⟨h1, h2⟩
      refine ⟨?_, by simpa using h2⟩
      rw [h1]
      simp [fileNames, hd]
    · rcases ih _ with ⟨h1, h2⟩
      simp only [walkStep, hd, if_true]
      exact ⟨by rw [h1]; simp [fileNames, hd], by simpa using h2⟩

theorem walkList_files_capped (w : String → String → Nat → FSRead → Directory)
    (opts : Options) (path : String) (level : Nat) (acc : WalkAcc) (es : List FSEntry)
    (h : opts.maxFiles ≠ 0) :
    (walkList w opts path level acc es).files =
        acc.files ++ ((fileNames es).take (opts.maxFiles - acc.files.length)).map (⟨·⟩) ∧
      (walkList w opts path level acc es).hiddenFiles =
        acc.hiddenFiles + ((fileNames es).length - (opts.maxFiles - acc.files.length)) := by
  induction es generalizing acc with
  | nil => simp [walkList, fileNames]
  | cons e rest ih =>
    cases hd : e.isDir
    case true =>
      have hstep : walkStep w opts path level acc e =
          ⟨acc.exts, acc.files, acc.hiddenFiles,
            acc.subdirs ++ [childOf w opts path level e]⟩ := by
        simp [walkStep, hd]
      obtain ⟨h1, h2⟩ := ih (⟨acc.exts, acc.files, acc.hiddenFiles,
        acc.subdirs ++ [childOf w opts path level e]⟩)
      have hf : fileNames (e :: rest) = fileNames rest := by simp [fileNames, hd]
      simp only [walkList, hstep, hf]
      exact ⟨h1, h2⟩
    case false =>
      have hf : fileNames (e :: rest) = e.name :: fileNames rest := by
        simp [fileNames, hd]
      by_cases hr : acc.files.length < opts.maxFiles
      case pos =>
        have hstep : walkStep w opts path level acc e =
            ⟨histAdd acc.exts (extKey e.name), acc.files ++ [⟨e.name⟩],
              acc.hiddenFiles, acc.subdirs⟩ := by
          simp [walkStep, hd, retainFile, hr]
        obtain ⟨h1, h2⟩ := ih (⟨histAdd acc.exts (extKey e.name),
          acc.files ++ [⟨e.name⟩], acc.hiddenFiles, acc.subdirs⟩)
        simp only [walkList, hstep, hf]
        constructor
        · rw [h1]
          have hd1 : opts.maxFiles - acc.files.length =
              (opts.maxFiles -
                (acc.files ++ [(⟨e.name⟩ : FileEntry)]).length) + 1 := by
            simp only [List.length_append, List.length_cons, List.length_nil]
            omega
          rw [hd1, List.take_succ_cons]
          simp
        · rw [h2]
          simp only [List.length_append, List.length_cons, List.length_nil]
          omega
      case neg =>
        have hstep : walkStep w opts path level acc e =
            ⟨histAdd acc.exts (extKey e.name), acc.files,
              acc.hiddenFiles + 1, acc.subdirs⟩ := by
          simp [walkStep, hd, retainFile, hr, h]
        obtain ⟨h1, h2⟩ := ih (⟨histAdd acc.exts (extKey e.name),
          acc.files, acc.hiddenFiles + 1, acc.subdirs⟩)
        have hz : opts.maxFiles - acc.files.length = 0 := by omega
        simp only [walkList, hstep, hf]
        constructor
        · rw [h1]; simp [hz]
        · rw [h2]
          simp only [List.length_cons, hz]
          omega

theorem walkDir_fail_eq (fuel : Nat) (opts : Options) (path name : String) (level : Nat)
    (e : FSError) : walkDir fuel opts path name level (.fail e) = errorNode path name level e := by
  cases fuel <;> rfl

theorem walkDir_ok_eq (fuel : Nat) (opts : Options) (path name : String) (level : Nat)
    (entries : List FSEntry) :
    walkDir (fuel + 1) opts path name level (.ok entries) =
      Directory.mk name path level (walkAcc fuel opts path level entries).subdirs
        (walkAcc fuel opts path level entries).files
        (walkAcc fuel opts path level entries).hiddenFiles
        (walkAcc fuel opts path level entries).subdirs.length
        ((walkAcc fuel opts path level entries).files.length
          + (walkAcc fuel opts path level entries).hiddenFiles)
        ((walkAcc fuel opts path level entries).subdirs.length
          + ((walkAcc fuel opts path level entries).subdirs.map Directory.totalDirs).sum)
        ((walkAcc fuel opts path level entries).files.length
          + (walkAcc fuel opts path level entries).hiddenFiles
          + ((walkAcc fuel opts path level entries).subdirs.map Directory.totalFiles).sum)
        (signatureForDirectory (walkAcc fuel opts path level entries).exts
          (walkAcc fuel opts path level entries).subdirs) none := rfl

theorem walkAcc_subdirs (fuel : Nat) (opts : Options) (path : String) (level : Nat)
    (entries : List FSEntry) :
    (walkAcc fuel opts path level entries).subdirs =
      ((sortEntries entries).filter FSEntry.isDir).map
        (childOf (walkDir fuel opts) opts path level) := by
  rw [walkAcc, walkList_subdirs]
  rfl

theorem walkAcc_exts (fuel : Nat) (opts : Options) (path : String) (level : Nat)
    (entries : List FSEntry) :
    (walkAcc fuel opts path level entries).exts =
      histAddAll [] (extKeys (sortEntries entries)) := by
  rw [walkAcc, walkList_exts]

theorem walkDir_subdirs (fuel : Nat) (opts : Options) (path name : String) (level : Nat)
    (entries : List FSEntry) :
    (walkDir (fuel + 1) opts path name level (.ok entries)).subdirs =
      ((sortEntries entries).filter FSEntry.isDir).map
        (childOf (walkDir fuel opts) opts path level) := by
  rw [walkDir_ok_eq, Directory.subdirs, walkAcc_subdirs]

theorem walkDir_ok_err (fuel : Nat) (opts : Options) (path name : String) (level : Nat)
    (entries : List FSEntry) :
    (walkDir fuel opts path name level (.ok entries)).err = none := by
  cases fuel with
  | zero => rfl
  | succ f => rw [walkDir_ok_eq, Directory.err]

theorem flatten_eq (d : Directory) : flatten d = d.view :: flattenList d.subdirs := by
  cases d with
  | mk name path level subdirs files hidden idc ifc td tf sig err => rfl

theorem mem_flattenList {v : NodeView} {l : List Directory} :
    v ∈ flattenList l ↔ ∃ d ∈ l, v ∈ flatten d := by
  induction l with
  | nil => simp [flattenList]
  | cons d ds ih => simp [flattenList, List.mem_append, ih]

theorem flatten_errorNode (path name : String) (level : Nat) (e : FSError) :
    flatten (errorNode path name level e) =
      [⟨name, path, level, 0, [], 0, 0, 0, 0, 0, signatureForError path e, some e, 0, 0⟩] := rfl

theorem flatten_leafNode (path name : String) (level : Nat) :
    flatten (leafNode path name level) =
      [⟨name, path, level, 0, [], 0, 0, 0, 0, 0, signatureForLeaf path, none, 0, 0⟩] := rfl

/-- C4: in every tree a walk produces, each node's `totalFiles` is its own
immediate file count (retained plus hidden) plus the sum of its children's
`totalFiles`, and its `totalDirs` is its number of immediate subdirectory
children plus the sum of the children's `totalDirs`; the node's immediate
file count itself is retained plus hidden.  This holds for every value of
the display file limit (the options are universally quantified). -/
theorem c4_count_invariant : ∀ (fuel : Nat) (opts : Options) (path name : String)
    (level : Nat) (read : FSRead), ∀ v ∈ flatten (walkDir fuel opts path name level read),
    v.immediateFileCount = v.fileNames.length + v.hiddenFiles ∧
    v.totalFiles = v.fileNames.length + v.hiddenFiles + v.childTotalFiles ∧
    v.totalDirs = v.subdirCount + v.childTotalDirs := by
  intro fuel
  induction fuel with
  | zero =>
    intro opts path name level read v hv
    cases read with
    | fail e =>
      rw [walkDir_fail_eq, flatten_errorNode] at hv
      rw [List.mem_singleton] at hv
      subst hv
      exact ⟨rfl, rfl, rfl⟩
    | ok entries =>
      rw [show walkDir 0 opts path name level (.ok entries) =
        Directory.mk name path level [] [] 0 0 0 0 0 "" none from rfl] at hv
      rw [flatten_eq] at hv
      simp only [Directory.view, Directory.subdirs, flattenList, List.mem_singleton] at hv
      subst hv
      exact ⟨rfl, rfl, rfl⟩
  | succ fuel ih =>
    intro opts path name level read v hv
    cases read with
    | fail e =>
      rw [walkDir_fail_eq, flatten_errorNode] at hv
      rw [List.mem_singleton] at hv
      subst hv
      exact ⟨rfl, rfl, rfl⟩
    | ok entries =>
      rw [walkDir_ok_eq, flatten_eq] at hv
      rcases List.mem_cons.mp hv with hv | hv
      · subst hv
        refine ⟨?_, ?_, ?_⟩ <;>
          simp [Directory.view, Directory.name, Directory.path, Directory.level,
            Directory.subdirs, Directory.files, Directory.hiddenFiles,
            Directory.immediateDirCount, Directory.immediateFileCount,
            Directory.totalDirs, Directory.totalFiles, Directory.signature, Directory.err]
      · rw [Directory.subdirs] at hv
        rw [mem_flattenList] at hv
        obtain ⟨d, hd, hvd⟩ := hv
        rw [walkAcc_subdirs] at hd
        obtain ⟨e, _, rfl⟩ := List.mem_map.mp hd
        rw [childOf] at hvd
        by_cases hm : opts.maxLevel ≠ 0 ∧ level ≥ opts.maxLevel
        · rw [if_pos hm, flatten_leafNode, List.mem_singleton] at hvd
          subst hvd
          exact ⟨rfl, rfl, rfl⟩
        · rw [if_neg hm] at hvd
          exact ih opts (joinPath path e.name) e.name (level + 1) e.readData v hvd

/-- Witness for C4 at a concrete walk. -/
theorem c4_count_invariant_witness :
    ∃ v ∈ flatten (walkDir 1 ⟨0, 0⟩ "r" "r" 0 (.ok [.file "a.txt"])),
      v.immediateFileCount = v.fileNames.length + v.hiddenFiles ∧
      v.totalFiles = v.fileNames.length + v.hiddenFiles + v.childTotalFiles ∧
      v.totalDirs = v.subdirCount + v.childTotalDirs := by
  refine ⟨⟨"r", "r", 0, 0, ["a.txt"], 0, 0, 1, 0, 1,
    signatureForDirectory [(".txt", 1)] [], none, 0, 0⟩, by decide, ?_⟩
  exact c4_count_invariant 1 ⟨0, 0⟩ "r" "r" 0 (.ok [.file "a.txt"]) _ (by decide)

/-- C5: for every node of a walk, `hiddenFiles = max(0, immediateFileCount -
maxFilesPerDir)` when the limit is positive (truncated `Nat` subtraction is
exactly `max(0, ·)`), and `hiddenFiles = 0` when the limit is 0 (unlimited);
the retained list keeps `min immediateFileCount maxFilesPerDir` files.
Moreover files beyond the cap still count toward `immediateFileCount` (which
equals the full number of file entries) and toward the extension histogram
the signature is computed from. -/
theorem c5_truncation_invariant :
    (∀ (fuel : Nat) (opts : Options) (path name : String) (level : Nat) (read : FSRead),
      ∀ v ∈ flatten (walkDir fuel opts path name level read),
        (opts.maxFiles = 0 → v.hiddenFiles = 0) ∧
        (opts.maxFiles ≠ 0 → v.hiddenFiles = v.immediateFileCount - opts.maxFiles ∧
          v.fileNames.length = min v.immediateFileCount opts.maxFiles)) ∧
    (∀ (fuel : Nat) (opts : Options) (path name : String) (level : Nat)
        (entries : List FSEntry),
      (walkDir (fuel + 1) opts path name level (.ok entries)).immediateFileCount =
          (fileNames (sortEntries entries)).length ∧
        (walkDir (fuel + 1) opts path name level (.ok entries)).signature =
          signatureForDirectory (histAddAll [] (extKeys (sortEntries entries)))
            (walkDir (fuel + 1) opts path name level (.ok entries)).subdirs) := by
  constructor
  · intro fuel
    induction fuel with
    | zero =>
      intro opts path name level read v hv
      cases read with
      | fail e =>
        rw [walkDir_fail_eq, flatten_errorNode, List.mem_singleton] at hv
        subst hv
        exact ⟨fun _ => rfl, fun _ => ⟨by simp, by simp⟩⟩
      | ok entries =>
        rw [show walkDir 0 opts path name level (.ok entries) =
          Directory.mk name path level [] [] 0 0 0 0 0 "" none from rfl] at hv
        rw [flatten_eq] at hv
        simp only [Directory.view, Directory.subdirs, flattenList, List.mem_singleton] at hv
        subst hv
        refine ⟨fun _ => rfl, fun _ => ⟨?_, ?_⟩⟩ <;>
          simp [Directory.hiddenFiles, Directory.immediateFileCount, Directory.files]
    | succ fuel ih =>
      intro opts path name level read v hv
      cases read with
      | fail e =>
        rw [walkDir_fail_eq, flatten_errorNode, List.mem_singleton] at hv
        subst hv
        exact ⟨fun _ => rfl, fun _ => ⟨by simp, by simp⟩⟩
      | ok entries =>
        rw [walkDir_ok_eq, flatten_eq] at hv
        rcases List.mem_cons.mp hv with hv | hv
        · subst hv
          constructor
          · intro h0
            obtain ⟨-, h2⟩ := walkList_files_unlimited (walkDir fuel opts) opts path level
              ⟨[], [], 0, []⟩ (sortEntries entries) h0
            simp only [Directory.view, Directory.hiddenFiles]
            exact h2
          · intro h0
            obtain ⟨h1, h2⟩ := walkList_files_capped (walkDir fuel opts) opts path level
              ⟨[], [], 0, []⟩ (sortEntries entries) h0
            simp only [Directory.view, Directory.hiddenFiles, Directory.files,
              Directory.immediateFileCount, NodeView.fileNames, NodeView.hiddenFiles,
              NodeView.immediateFileCount]
            rw [show walkAcc fuel opts path level entries =
              walkList (walkDir fuel opts) opts path level ⟨[], [], 0, []⟩
                (sortEntries entries) from rfl]
            rw [h1, h2]
            simp only [List.nil_append, List.length_map, List.length_take, List.length_nil,
              Nat.sub_zero]
            omega
        · rw [Directory.subdirs] at hv
          rw [mem_flattenList] at hv
          obtain ⟨d, hd, hvd⟩ := hv
          rw [walkAcc_subdirs] at hd
          obtain ⟨e, _, rfl⟩ := List.mem_map.mp hd
          rw [childOf] at hvd
          by_cases hm : opts.maxLevel ≠ 0 ∧ level ≥ opts.maxLevel
          · rw [if_pos hm, flatten_leafNode, List.mem_singleton] at hvd
            subst hvd
            exact ⟨fun _ => rfl, fun _ => ⟨by simp, by simp⟩⟩
          · rw [if_neg hm] at hvd
            exact ih opts (joinPath path e.name) e.name (level + 1) e.readData v hvd
  · intro fuel opts path name level entries
    constructor
    · rw [walkDir_ok_eq, Directory.immediateFileCount]
      have h := walkList_count (walkDir fuel opts) opts path level
        ⟨[], [], 0, []⟩ (sortEntries entries)
      rw [show walkAcc fuel opts path level entries =
        walkList (walkDir fuel opts) opts path level ⟨[], [], 0, []⟩
          (sortEntries entries) from rfl]
      simpa using h
    · rw [walkDir_ok_eq, Directory.signature, Directory.subdirs, walkAcc_exts]

/-- Witness for C5: limit 1 over two files retains one and hides one. -/
theorem c5_truncation_invariant_witness :
    ∃ v ∈ flatten (walkDir 1 ⟨1, 0⟩ "r" "r" 0 (.ok [.file "a.txt", .file "b.txt"])),
      v.hiddenFiles = v.immediateFileCount - 1 ∧
        v.fileNames.length = min v.immediateFileCount 1 := by
  refine ⟨⟨"r", "r", 0, 0, ["a.txt"], 1, 0, 2, 0, 2,
    signatureForDirectory [(".txt", 2)] [], none, 0, 0⟩, by decide, ?_⟩
  exact (c5_truncation_invariant.1 1 ⟨1, 0⟩ "r" "r" 0
    (.ok [.file "a.txt", .file "b.txt"]) _ (by decide)).2 (by decide)

theorem stripD_mk (n p : String) (l : Nat) (subs : List Directory) (files : List FileEntry)
    (hid idc ifc td tf : Nat) (sig : String) (err : Option FSError) :
    stripD (.mk n p l subs files hid idc ifc td tf sig err) =
      .mk n p l (stripDList subs) [] 0 idc ifc td tf sig err := rfl

theorem stripDList_eq_map (l : List Directory) : stripDList l = l.map stripD := by
  induction l with
  | nil => rfl
  | cons d ds ih => rw [stripDList, ih, List.map_cons]

theorem stripD_signature (d : Directory) : (stripD d).signature = d.signature := by
  cases d; rfl

theorem stripD_totalDirs (d : Directory) : (stripD d).totalDirs = d.totalDirs := by
  cases d; rfl

theorem stripD_totalFiles (d : Directory) : (stripD d).totalFiles = d.totalFiles := by
  cases d; rfl

mutual
theorem flatten_stripD_sig : ∀ (d : Directory),
    (flatten (stripD d)).map NodeView.signature = (flatten d).map NodeView.signature
  | .mk n p l subs files hid idc ifc td tf sig err => by
    rw [stripD_mk, flatten_eq, flatten_eq]
    simp only [Directory.view, Directory.subdirs, Directory.signature, List.map_cons]
    rw [flattenList_stripD_sig subs]
theorem flattenList_stripD_sig : ∀ (l : List Directory),
    (flattenList (stripDList l)).map NodeView.signature =
      (flattenList l).map NodeView.signature
  | [] => rfl
  | d :: ds => by
    rw [stripDList, flattenList, flattenList, List.map_append, List.map_append,
      flatten_stripD_sig d, flattenList_stripD_sig ds]
end

theorem strip_walk_indep : ∀ (fuel : Nat) (mf₁ mf₂ maxL : Nat) (path name : String)
    (level : Nat) (read : FSRead),
    stripD (walkDir fuel ⟨mf₁, maxL⟩ path name level read) =
      stripD (walkDir fuel ⟨mf₂, maxL⟩ path name level read) := by
  intro fuel
  induction fuel with
  | zero =>
    intro mf₁ mf₂ maxL path name level read
    cases read with
    | fail e => rw [walkDir_fail_eq, walkDir_fail_eq]
    | ok entries => rfl
  | succ fuel ih =>
    intro mf₁ mf₂ maxL path name level read
    cases read with
    | fail e => rw [walkDir_fail_eq, walkDir_fail_eq]
    | ok entries =>
      have hsub : stripDList (walkAcc fuel ⟨mf₁, maxL⟩ path level entries).subdirs =
          stripDList (walkAcc fuel ⟨mf₂, maxL⟩ path level entries).subdirs := by
        rw [walkAcc_subdirs, walkAcc_subdirs, stripDList_eq_map, stripDList_eq_map,
          List.map_map, List.map_map]
        apply List.map_congr_left
        intro e _
        simp only [Function.comp_apply, childOf]
        split
        · rfl
        · exact ih mf₁ mf₂ maxL (joinPath path e.name) e.name (level + 1) e.readData
      have hlen : (walkAcc fuel ⟨mf₁, maxL⟩ path level entries).subdirs.length =
          (walkAcc fuel ⟨mf₂, maxL⟩ path level entries).subdirs.length := by
        rw [walkAcc_subdirs, walkAcc_subdirs, List.length_map, List.length_map]
      have hcount : (walkAcc fuel ⟨mf₁, maxL⟩ path level entries).files.length +
            (walkAcc fuel ⟨mf₁, maxL⟩ path level entries).hiddenFiles =
          (walkAcc fuel ⟨mf₂, maxL⟩ path level entries).files.length +
            (walkAcc fuel ⟨mf₂, maxL⟩ path level entries).hiddenFiles := by
        rw [show walkAcc fuel ⟨mf₁, maxL⟩ path level entries =
          walkList (walkDir fuel ⟨mf₁, maxL⟩) ⟨mf₁, maxL⟩ path level ⟨[], [], 0, []⟩
            (sortEntries entries) from rfl]
        rw [show walkAcc fuel ⟨mf₂, maxL⟩ path level entries =
          walkList (walkDir fuel ⟨mf₂, maxL⟩) ⟨mf₂, maxL⟩ path level ⟨[], [], 0, []⟩
            (sortEntries entries) from rfl]
        rw [walkList_count, walkList_count]
      have hsigs : (walkAcc fuel ⟨mf₁, maxL⟩ path level entries).subdirs.map Directory.signature =
          (walkAcc fuel ⟨mf₂, maxL⟩ path level entries).subdirs.map Directory.signature := by
        have h := congrArg (List.map Directory.signature) hsub
        rw [stripDList_eq_map, stripDList_eq_map, List.map_map, List.map_map] at h
        have h1 : Directory.signature ∘ stripD = Directory.signature := by
          funext d
          exact stripD_signature d
        rw [h1] at h
        exact h
      have htd : ((walkAcc fuel ⟨mf₁, maxL⟩ path level entries).subdirs.map Directory.totalDirs).sum =
          ((walkAcc fuel ⟨mf₂, maxL⟩ path level entries).subdirs.map Directory.totalDirs).sum := by
        have h := congrArg (List.map Directory.totalDirs) hsub
        rw [stripDList_eq_map, stripDList_eq_map, List.map_map, List.map_map] at h
        have h1 : Directory.totalDirs ∘ stripD = Directory.totalDirs := by
          funext d
          exact stripD_totalDirs d
        rw [h1] at h
        rw [h]
      have htf : ((walkAcc fuel ⟨mf₁, maxL⟩ path level entries).subdirs.map Directory.totalFiles).sum =
          ((walkAcc fuel ⟨mf₂, maxL⟩ path level entries).subdirs.map Directory.totalFiles).sum := by
        have h := congrArg (List.map Directory.totalFiles) hsub
        rw [stripDList_eq_map, stripDList_eq_map, List.map_map, List.map_map] at h
        have h1 : Directory.totalFiles ∘ stripD = Directory.totalFiles := by
          funext d
          exact stripD_totalFiles d
        rw [h1] at h
        rw [h]
      have hexts : (walkAcc fuel ⟨mf₁, maxL⟩ path level entries).exts =
          (walkAcc fuel ⟨mf₂, maxL⟩ path level entries).exts := by
        rw [walkAcc_exts, walkAcc_exts]
      rw [walkDir_ok_eq, walkDir_ok_eq, stripD_mk, stripD_mk]
      rw [Directory.mk.injEq]
      refine ⟨rfl, rfl, rfl, hsub, rfl, rfl, hlen, hcount, ?_, ?_, ?_, rfl⟩
      · rw [hlen, htd]
      · rw [hcount, htf]
      · rw [signatureForDirectory, signatureForDirectory, hexts, hsigs]

/-- C3: the computed signatures are independent of the per-directory display
file limit: two walks of the same snapshot that differ only in `maxFiles`
produce trees that agree on everything except the retained file lists and
hidden counts (`stripD` erases exactly those), and in particular assign every
corresponding directory the same signature. -/
theorem c3_signature_indep_of_maxFiles (fuel : Nat) (mf₁ mf₂ maxL : Nat)
    (path name : String) (level : Nat) (read : FSRead) :
    stripD (walkDir fuel ⟨mf₁, maxL⟩ path name level read) =
        stripD (walkDir fuel ⟨mf₂, maxL⟩ path name level read) ∧
      (flatten (walkDir fuel ⟨mf₁, maxL⟩ path name level read)).map NodeView.signature =
        (flatten (walkDir fuel ⟨mf₂, maxL⟩ path name level read)).map NodeView.signature := by
  refine ⟨strip_walk_indep fuel mf₁ mf₂ maxL path name level read, ?_⟩
  rw [← flatten_stripD_sig (walkDir fuel ⟨mf₁, maxL⟩ path name level read),
    ← flatten_stripD_sig (walkDir fuel ⟨mf₂, maxL⟩ path name level read),
    strip_walk_indep fuel mf₁ mf₂ maxL path name level read]

theorem signatureForDirectory_ne_leaf (h : List (String × Nat)) (s : List Directory)
    (p : String) : signatureForDirectory h s ≠ signatureForLeaf p := by
  intro heq
  have hd := congrArg String.data heq
  rw [signatureForDirectory, signatureForLeaf, String.data_append, String.data_append] at hd
  simp at hd

theorem signatureForError_ne_dir (p : String) (e : FSError) (h : List (String × Nat))
    (s : List Directory) : signatureForError p e ≠ signatureForDirectory h s := by
  intro heq
  have hd := congrArg String.data heq
  rw [signatureForError, signatureForDirectory, String.data_append, String.data_append,
    String.data_append] at hd
  simp at hd

theorem signatureForError_ne_leaf (p q : String) (e : FSError) :
    signatureForError p e ≠ signatureForLeaf q := by
  intro heq
  have hd := congrArg String.data heq
  rw [signatureForError, signatureForLeaf, String.data_append, String.data_append,
    String.data_append] at hd
  simp at hd

/-- C1 counterexample: walking `root/{a/{x.txt}, b/{y.txt}}` with
`maxDepth = 1` does NOT record `a` and `b` as unknown-contents markers: both
children are fully read (their retained file lists are `x.txt` and `y.txt`,
their subtree file totals are 1 each, and their signatures are content
signatures, not `signatureForLeaf` markers).  `totalDirCount = 2` does hold. -/
theorem c1_counterexample :
    (walkDir 3 ⟨0, 1⟩ "root" "root" 0
        (.ok [.dirOk "a" [.file "x.txt"], .dirOk "b" [.file "y.txt"]])).subdirs.map
          (fun d => d.files.map FileEntry.name) = [["x.txt"], ["y.txt"]] ∧
      (walkDir 3 ⟨0, 1⟩ "root" "root" 0
        (.ok [.dirOk "a" [.file "x.txt"], .dirOk "b" [.file "y.txt"]])).subdirs.map
          Directory.totalFiles = [1, 1] ∧
      (walkDir 3 ⟨0, 1⟩ "root" "root" 0
        (.ok [.dirOk "a" [.file "x.txt"], .dirOk "b" [.file "y.txt"]])).subdirs.map
          Directory.signature =
        [signatureForDirectory [(".txt", 1)] [], signatureForDirectory [(".txt", 1)] []] ∧
      signatureForDirectory [(".txt", 1)] [] ≠ signatureForLeaf "root/a" ∧
      (walkDir 3 ⟨0, 1⟩ "root" "root" 0
        (.ok [.dirOk "a" [.file "x.txt"], .dirOk "b" [.file "y.txt"]])).totalDirs = 2 := by
  refine ⟨rfl, rfl, by decide, signatureForDirectory_ne_leaf _ _ _, rfl⟩

/-- C1 (amended): with `maxDepth = N > 0`, directories at depth at most `N`
are fully expanded, and the subdirectories of a depth-`N` directory — i.e.
directories at depth `N + 1` — are recorded as leaf-of-unknown-contents
markers, never read; `maxDepth = 0` (or any depth below `N`) expands fully.
In the `maxDepth = 1` scenario over `root/{a/{x.txt}, b/{y.txt}}` both
children are therefore fully expanded and `totalDirCount = 2`; a grandchild
`root/a/c` is where the marker appears. -/
theorem c1_depth_limit :
    (∀ (fuel : Nat) (opts : Options) (path name : String) (level : Nat)
        (entries : List FSEntry),
      (opts.maxLevel ≠ 0 → level ≥ opts.maxLevel →
        (walkDir (fuel + 1) opts path name level (.ok entries)).subdirs =
          ((sortEntries entries).filter FSEntry.isDir).map
            (fun e => leafNode (joinPath path e.name) e.name (level + 1))) ∧
      (opts.maxLevel = 0 ∨ level < opts.maxLevel →
        (walkDir (fuel + 1) opts path name level (.ok entries)).subdirs =
          ((sortEntries entries).filter FSEntry.isDir).map
            (fun e => walkDir fuel opts (joinPath path e.name) e.name (level + 1)
              e.readData))) ∧
    ((walkDir 3 ⟨0, 1⟩ "root" "root" 0
        (.ok [.dirOk "a" [.file "x.txt"], .dirOk "b" [.file "y.txt"]])).totalDirs = 2 ∧
      (walkDir 3 ⟨0, 1⟩ "root" "root" 0
        (.ok [.dirOk "a" [.dirOk "c" [.file "z.txt"]]])).subdirs.map Directory.subdirs =
        [[leafNode "root/a/c" "c" 2]]) := by
  refine ⟨?_, rfl, rfl⟩
  intro fuel opts path name level entries
  constructor
  · intro h0 hge
    rw [walkDir_subdirs]
    apply List.map_congr_left
    intro e _
    rw [childOf, if_pos ⟨h0, hge⟩]
  · intro hlt
    rw [walkDir_subdirs]
    apply List.map_congr_left
    intro e _
    rw [childOf, if_neg]
    rcases hlt with h | h
    · simp [h]
    · simp
      omega

/-- Witness for C1 (amended) at depth-limit boundary levels. -/
theorem c1_depth_limit_witness :
    (walkDir 1 ⟨0, 2⟩ "r" "r" 2 (.ok [.dirOk "s" [.file "t.txt"]])).subdirs =
        [leafNode "r/s" "s" 3] ∧
      (walkDir 1 ⟨0, 2⟩ "r" "r" 1 (.ok [.dirOk "s" [.file "t.txt"]])).subdirs =
        [walkDir 0 ⟨0, 2⟩ "r/s" "s" 2 (.ok [.file "t.txt"])] := by
  constructor
  · have h := (c1_depth_limit.1 0 ⟨0, 2⟩ "r" "r" 2 [.dirOk "s" [.file "t.txt"]]).1
      (by decide) (by decide)
    rw [h]
    rfl
  · have h := (c1_depth_limit.1 0 ⟨0, 2⟩ "r" "r" 1 [.dirOk "s" [.file "t.txt"]]).2
      (Or.inr (by decide))
    rw [h]
    rfl

/-- C7: `Walk` fails (producing no tree) exactly when the root cannot be
stat'ed, is not a directory, or cannot be read; a failed read of a non-root
subdirectory is instead recorded on that child's node — which carries the
error, an error-derived signature and an all-zero childless subtree — while
every sibling subdirectory is still walked on its own subtree (the child
list is exactly the per-entry map over all sorted directory entries). -/
theorem c7_error_propagation :
    (∀ (fuel : Nat) (path name : String) (opts : Options) (root : RootFS),
      (∃ er, Walk fuel path name opts root = .error er) ↔
        ((∃ e, root = .statErr e) ∨ root = .notDir ∨ ∃ e, root = .dir (.fail e))) ∧
    (∀ (fuel : Nat) (opts : Options) (path name : String) (level : Nat)
        (es : List FSEntry) (n : String) (e : FSError),
      ¬(opts.maxLevel ≠ 0 ∧ level ≥ opts.maxLevel) → FSEntry.dirErr n e ∈ es →
        errorNode (joinPath path n) n (level + 1) e ∈
          (walkDir (fuel + 1) opts path name level (.ok es)).subdirs) ∧
    (∀ (path name : String) (level : Nat) (e : FSError),
      (errorNode path name level e).err = some e ∧
        (errorNode path name level e).subdirs = [] ∧
        (errorNode path name level e).files = [] ∧
        (errorNode path name level e).totalDirs = 0 ∧
        (errorNode path name level e).totalFiles = 0 ∧
        (errorNode path name level e).signature = signatureForError path e) ∧
    (∀ (fuel : Nat) (opts : Options) (path name : String) (level : Nat)
        (es : List FSEntry),
      (walkDir (fuel + 1) opts path name level (.ok es)).subdirs =
        ((sortEntries es).filter FSEntry.isDir).map
          (childOf (walkDir fuel opts) opts path level)) := by
  refine ⟨?_, ?_, fun _ _ _ _ => ⟨rfl, rfl, rfl, rfl, rfl, rfl⟩, walkDir_subdirs⟩
  · intro fuel path name opts root
    cases root with
    | statErr e =>
      constructor
      · intro _
        exact Or.inl ⟨e, rfl⟩
      · intro _
        exact ⟨.statFailed e, rfl⟩
    | notDir =>
      constructor
      · intro _
        exact Or.inr (Or.inl rfl)
      · intro _
        exact ⟨.notADirectory path, rfl⟩
    | dir read =>
      cases read with
      | fail e =>
        constructor
        · intro _
          exact Or.inr (Or.inr ⟨e, rfl⟩)
        · intro _
          refine ⟨.readFailed e, ?_⟩
          rw [Walk]
          rw [walkDir_fail_eq]
          rfl
      | ok entries =>
        constructor
        · rintro ⟨er, her⟩
          rw [Walk] at her
          rw [walkDir_ok_err] at her
          exact absurd her (by simp)
        · rintro (⟨e, he⟩ | he | ⟨e, he⟩) <;> exact absurd he (by simp)
  · intro fuel opts path name level es n e hm hmem
    rw [walkDir_subdirs]
    have hmem1 : FSEntry.dirErr n e ∈ sortEntries es := (sortEntries_perm es).mem_iff.mpr hmem
    have hmem2 : FSEntry.dirErr n e ∈ (sortEntries es).filter FSEntry.isDir :=
      List.mem_filter.mpr ⟨hmem1, rfl⟩
    refine List.mem_map.mpr ⟨FSEntry.dirErr n e, hmem2, ?_⟩
    rw [childOf, if_neg hm]
    rw [show (FSEntry.dirErr n e).readData = .fail e from rfl,
      show (FSEntry.dirErr n e).name = n from rfl, walkDir_fail_eq]

/-- Witness for C7: the root-failure equivalence at a concrete unreadable
root, and a concrete unreadable subdirectory recorded among walked siblings. -/
theorem c7_error_propagation_witness :
    (∃ er, Walk 1 "r" "r" ⟨0, 0⟩ (.dir (.fail .permission)) = .error er) ∧
      errorNode (joinPath "r" "broken") "broken" 1 .notFound ∈
        (walkDir 2 ⟨0, 0⟩ "r" "r" 0
          (.ok [.dirErr "broken" .notFound, .dirOk "good" [.file "a.txt"]])).subdirs := by
  constructor
  · exact (c7_error_propagation.1 1 "r" "r" ⟨0, 0⟩ (.dir (.fail .permission))).mpr
      (Or.inr (Or.inr ⟨.permission, rfl⟩))
  · exact c7_error_propagation.2.1 1 ⟨0, 0⟩ "r" "r" 0
      [.dirErr "broken" .notFound, .dirOk "good" [.file "a.txt"]] "broken" .notFound
      (by decide) (by simp)

/-- C8: a subdirectory whose read fails with a permission error yields a node
whose error is recognizably the permission category, with zero counts, no
children or files, and a signature derived from its path and error category;
that signature never equals the signature of any normally-read directory —
in particular not that of an empty directory — nor a depth-marker signature,
so erroring directories never group with successfully read ones. -/
theorem c8_permission_error :
    (∀ (fuel : Nat) (opts : Options) (path name : String) (level : Nat),
      walkDir fuel opts path name level (.fail .permission) =
        errorNode path name level .permission) ∧
    (∀ (path name : String) (level : Nat),
      (errorNode path name level .permission).IsPermissionError = true ∧
        (errorNode path name level .permission).err = some .permission ∧
        (errorNode path name level .permission).subdirs = [] ∧
        (errorNode path name level .permission).files = [] ∧
        (errorNode path name level .permission).totalDirs = 0 ∧
        (errorNode path name level .permission).totalFiles = 0 ∧
        (errorNode path name level .permission).immediateFileCount = 0 ∧
        (errorNode path name level .permission).signature =
          signatureForError path .permission) ∧
    (∀ (p : String) (e : FSError) (h : List (String × Nat)) (s : List Directory),
      signatureForError p e ≠ signatureForDirectory h s) ∧
    (∀ (p q : String) (e : FSError), signatureForError p e ≠ signatureForLeaf q) ∧
    (∀ (p : String) (e : FSError), signatureForError p e ≠ signatureForDirectory [] []) := by
  exact ⟨fun fuel opts path name level => walkDir_fail_eq fuel opts path name level .permission,
    fun _ _ _ => ⟨rfl, rfl, rfl, rfl, rfl, rfl, rfl, rfl⟩,
    signatureForError_ne_dir,
    signatureForError_ne_leaf,
    fun p e => signatureForError_ne_dir p e [] []⟩

theorem perm_map_name_eq {l₁ l₂ : List FSEntry} (hp : l₁.Perm l₂)
    (hm : l₁.map FSEntry.name = l₂.map FSEntry.name)
    (hn : (l₁.map FSEntry.name).Nodup) : l₁ = l₂ := by
  induction l₁ generalizing l₂ with
  | nil => exact hp.symm.eq_nil.symm
  | cons a t ih =>
    cases l₂ with
    | nil => exact absurd hp.eq_nil (by simp)
    | cons b t₂ =>
      simp only [List.map_cons, List.cons.injEq] at hm
      obtain ⟨hab, hmt⟩ := hm
      have hmem : a = b ∨ a ∈ t₂ := by
        have h := hp.mem_iff.mp (List.mem_cons_self a t)
        simpa using h
      rcases hmem with rfl | hmem
      · have hp1 := hp.cons_inv
        have hn1 : (t.map FSEntry.name).Nodup := by
          simp only [List.map_cons, List.nodup_cons] at hn
          exact hn.2
        rw [ih hp1 hmt hn1]
      · exfalso
        have h1 : a.name ∈ t₂.map FSEntry.name := List.mem_map_of_mem _ hmem
        rw [← hmt] at h1
        simp only [List.map_cons, List.nodup_cons] at hn
        exact hn.1 h1

theorem sortEntries_eq_of_perm {es₁ es₂ : List FSEntry} (hp : es₁.Perm es₂)
    (hn : (es₁.map FSEntry.name).Nodup) : sortEntries es₁ = sortEntries es₂ := by
  have hp1 : (sortEntries es₁).Perm (sortEntries es₂) :=
    ((sortEntries_perm es₁).trans hp).trans (sortEntries_perm es₂).symm
  have hs1 : ((sortEntries es₁).map FSEntry.name).Pairwise (fun a b => nameLe a b = true) :=
    List.pairwise_map.mpr (sortEntries_sorted es₁)
  have hs2 : ((sortEntries es₂).map FSEntry.name).Pairwise (fun a b => nameLe a b = true) :=
    List.pairwise_map.mpr (sortEntries_sorted es₂)
  have hmeq : (sortEntries es₁).map FSEntry.name = (sortEntries es₂).map FSEntry.name :=
    List.eq_of_perm_of_sorted (hp1.map _) hs1 hs2
  have hn1 : ((sortEntries es₁).map FSEntry.name).Nodup :=
    (List.Perm.nodup_iff ((sortEntries_perm es₁).map _)).mpr hn
  exact perm_map_name_eq hp1 hmeq hn1

/-- C9: the directory signature is insensitive to filesystem return order:
for a fixed extension histogram, any permutation of the immediate
subdirectory list (visible as a permutation of their signatures) yields the
same signature string, because extension keys and child signatures are
sorted before hashing; consequently walking the same snapshot with its
entries delivered in any order (names of sibling entries being distinct, as
they are on a real filesystem) produces the identical tree. -/
theorem c9_order_insensitive :
    (∀ (hist : List (String × Nat)) (s₁ s₂ : List Directory),
      (s₁.map Directory.signature).Perm (s₂.map Directory.signature) →
        signatureForDirectory hist s₁ = signatureForDirectory hist s₂) ∧
    (∀ (fuel : Nat) (opts : Options) (path name : String) (level : Nat)
        (es₁ es₂ : List FSEntry), es₁.Perm es₂ → (es₁.map FSEntry.name).Nodup →
      walkDir fuel opts path name level (.ok es₁) =
        walkDir fuel opts path name level (.ok es₂)) := by
  constructor
  · intro hist s₁ s₂ hperm
    rw [signatureForDirectory, signatureForDirectory, dirSigBytes, dirSigBytes,
      sortStrings_congr hperm]
  · intro fuel opts path name level es₁ es₂ hp hn
    cases fuel with
    | zero => rfl
    | succ fuel =>
      have hacc : walkAcc fuel opts path level es₁ = walkAcc fuel opts path level es₂ := by
        rw [walkAcc, walkAcc, sortEntries_eq_of_perm hp hn]
      rw [walkDir_ok_eq, walkDir_ok_eq, hacc]

/-- Witness for C9: a swapped subdirectory pair and a swapped entry pair. -/
theorem c9_order_insensitive_witness :
    signatureForDirectory [(".go", 1)]
        [errorNode "p" "x" 1 .permission, leafNode "q" "y" 1] =
      signatureForDirectory [(".go", 1)]
        [leafNode "q" "y" 1, errorNode "p" "x" 1 .permission] ∧
      walkDir 1 ⟨0, 0⟩ "r" "r" 0 (.ok [.file "b.txt", .file "a.txt"]) =
        walkDir 1 ⟨0, 0⟩ "r" "r" 0 (.ok [.file "a.txt", .file "b.txt"]) := by
  constructor
  · exact c9_order_insensitive.1 [(".go", 1)] _ _ (List.Perm.swap _ _ _)
  · exact c9_order_insensitive.2 1 ⟨0, 0⟩ "r" "r" 0 _ _ (List.Perm.swap _ _ _) (by decide)

theorem foldl_fnvStep_lt (bytes : List Nat) (init : Nat) (h : init < 2 ^ 64) :
    bytes.foldl fnvStep init < 2 ^ 64 := by
  induction bytes generalizing init with
  | nil => exact h
  | cons b rest ih => exact ih _ (Nat.mod_lt _ (by norm_num))

theorem fnv64_lt (bytes : List Nat) : fnv64 bytes < 2 ^ 64 :=
  foldl_fnvStep_lt bytes fnvOffset (by norm_num [fnvOffset])

theorem data_f_dotsA (k : Nat) :
    ("f" ++ dotsA k).data = 'f' :: '.' :: List.replicate k 'a' := by
  rw [String.data_append]
  rfl

theorem extOfAux_replicate (rest acc : List Char) (k : Nat) :
    extOfAux (List.replicate k 'a' ++ '.' :: rest) acc =
      String.mk ('.' :: (List.replicate k 'a' ++ acc)) := by
  induction k generalizing acc with
  | zero =>
    rw [List.replicate_zero, List.nil_append, extOfAux]
    simp
  | succ k ih =>
    rw [List.replicate_succ, List.cons_append, extOfAux]
    rw [if_neg (by decide), if_neg (by decide)]
    rw [ih ('a' :: acc)]
    have hstep : List.replicate k 'a' ++ 'a' :: acc = 'a' :: List.replicate k 'a' ++ acc := by
      rw [show ('a' :: acc) = ['a'] ++ acc from rfl, ← List.append_assoc,
        ← List.replicate_succ', List.replicate_succ, List.cons_append]
    rw [hstep]

theorem extOf_f_dotsA (k : Nat) : extOf ("f" ++ dotsA k) = dotsA k := by
  rw [extOf, data_f_dotsA]
  rw [show ('f' :: '.' :: List.replicate k 'a').reverse =
    List.replicate k 'a' ++ '.' :: ['f'] by
      simp [List.reverse_cons, List.reverse_replicate, List.append_assoc]]
  rw [extOfAux_replicate]
  simp [dotsA]

theorem toLower_dotsA (k : Nat) : toLowerStr (dotsA k) = dotsA k := by
  rw [toLowerStr, dotsA]
  simp only [List.map_cons, List.map_replicate]
  rw [show Char.toLower '.' = '.' by decide, show Char.toLower 'a' = 'a' by decide]

theorem dotsA_ne_empty (k : Nat) : dotsA k ≠ "" := by
  intro h
  have hd := congrArg String.data h
  simp [dotsA] at hd

theorem extKey_f_dotsA (k : Nat) : extKey ("f" ++ dotsA k) = dotsA k := by
  simp only [extKey, extOf_f_dotsA, toLower_dotsA]
  rw [if_neg (dotsA_ne_empty k)]

theorem dotsA_inj {k₁ k₂ : Nat} (h : dotsA k₁ = dotsA k₂) : k₁ = k₂ := by
  have hd := congrArg String.data h
  simp only [dotsA, List.cons.injEq, true_and] at hd
  have hl := congrArg List.length hd
  simpa using hl

theorem oneFileDir_sig (k : Nat) :
    (oneFileDir k).signature = signatureForDirectory [(dotsA k, 1)] [] := by
  have h : (oneFileDir k).signature =
      signatureForDirectory [(extKey ("f" ++ dotsA k), 1)] [] := rfl
  rw [h, extKey_f_dotsA]

theorem c2_collision : ∃ k₁ k₂ : Nat, k₁ ≠ k₂ ∧
    signatureForDirectory [(dotsA k₁, 1)] [] = signatureForDirectory [(dotsA k₂, 1)] [] := by
  have hmap : ∀ a ∈ Finset.range (2 ^ 64 + 1),
      fnv64 (dirSigBytes [(dotsA a, 1)] []) ∈ Finset.range (2 ^ 64) :=
    fun a _ => Finset.mem_range.mpr (fnv64_lt _)
  have hcard : (Finset.range (2 ^ 64)).card < (Finset.range (2 ^ 64 + 1)).card := by
    simp [Finset.card_range]
  obtain ⟨x, _, y, _, hxy, hfe⟩ :=
    Finset.exists_ne_map_eq_of_card_lt_of_maps_to hcard hmap
  refine ⟨x, y, hxy, ?_⟩
  rw [signatureForDirectory, signatureForDirectory]
  rw [show ([] : List Directory).map Directory.signature = [] from rfl, hfe]

/-- C2 counterexample: the claimed "only if" direction fails.  The signature
is a 64-bit FNV digest, so by pigeonhole there are two successfully read
directories — each holding a single file `f.aa…a`, with extensions of
different lengths and hence different extension histograms — that receive
the same signature.  (The collision is nonconstructive: this refutes the
universally quantified claim rather than exhibiting the colliding pair.) -/
theorem c2_counterexample :
    ¬ (∀ k₁ k₂ : Nat, (oneFileDir k₁).err = none → (oneFileDir k₂).err = none →
        (oneFileDir k₁).signature = (oneFileDir k₂).signature → dotsA k₁ = dotsA k₂) := by
  intro hclaim
  obtain ⟨k₁, k₂, hne, hsig⟩ := c2_collision
  have h := hclaim k₁ k₂ rfl rfl (by rw [oneFileDir_sig, oneFileDir_sig, hsig])
  exact hne (dotsA_inj h)

/-- C2 (amended): signature equality follows from extension-histogram
equality plus child-signature multiset equality: two directories whose
histograms have the same keys up to order with identical counts, and whose
immediate subdirectories' signatures are a permutation of one another,
receive equal signatures (the NUL-separated, fixed-width-count byte encoding
and the sorting of keys and child signatures make the digest input
identical).  The converse holds only up to collisions of the 64-bit FNV-1a
digest, which exist by pigeonhole. -/
theorem c2_signature_of_structure
    (h₁ h₂ : List (String × Nat)) (s₁ s₂ : List Directory)
    (hkeys : (h₁.map Prod.fst).Perm (h₂.map Prod.fst))
    (hget : ∀ e, histGet h₁ e = histGet h₂ e)
    (hsigs : (s₁.map Directory.signature).Perm (s₂.map Directory.signature)) :
    signatureForDirectory h₁ s₁ = signatureForDirectory h₂ s₂ := by
  rw [signatureForDirectory, signatureForDirectory, dirSigBytes, dirSigBytes,
    sortStrings_congr hkeys, sortStrings_congr hsigs]
  rw [show (sortStrings (h₂.map Prod.fst)).map
      (fun ext => strBytes ext ++ [0] ++ intToBytes (histGet h₁ ext)) =
    (sortStrings (h₂.map Prod.fst)).map
      (fun ext => strBytes ext ++ [0] ++ intToBytes (histGet h₂ ext)) from
    List.map_congr_left (fun e _ => by rw [hget e])]

/-- Witness for C2 (amended): a reordered two-extension histogram and a
swapped child pair produce the identical signature. -/
theorem c2_signature_of_structure_witness :
    signatureForDirectory [(".a", 1), (".b", 2)] [leafNode "p" "x" 1] =
      signatureForDirectory [(".b", 2), (".a", 1)] [leafNode "p" "x" 1] := by
  apply c2_signature_of_structure
  · exact List.Perm.swap _ _ _
  · intro e
    by_cases ha : ".a" = e
    · subst ha
      decide
    · by_cases hb : ".b" = e
      · subst hb
        decide
      · simp [histGet, ha, hb]
  · exact List.Perm.refl _


theorem hasBucket_bucketAdd (B : List (String × List Directory)) (sig : String)
    (d : Directory) (s : String) :
    hasBucket (bucketAdd B sig d) s = (s == sig || hasBucket B s) := by
  induction B with
  | nil =>
    rw [show bucketAdd [] sig d = [(sig, [d])] from rfl]
    rw [show hasBucket [(sig, [d])] s = (sig == s || false) from rfl]
    rw [show hasBucket ([] : List (String × List Directory)) s = false from rfl]
    by_cases hs : s = sig
    · subst hs
      simp
    · rw [beq_eq_false_iff_ne.mpr hs, beq_eq_false_iff_ne.mpr (fun h => hs h.symm)]
  | cons kv rest ih =>
    obtain ⟨k, ds⟩ := kv
    rw [show hasBucket ((k, ds) :: rest) s = (k == s || hasBucket rest s) from rfl]
    by_cases hk : k = sig
    · subst hk
      rw [show bucketAdd ((k, ds) :: rest) k d = (k, ds ++ [d]) :: rest from by
        rw [bucketAdd, if_pos rfl]]
      rw [show hasBucket ((k, ds ++ [d]) :: rest) s = (k == s || hasBucket rest s) from rfl]
      by_cases hs : s = k
      · subst hs
        simp
      · rw [beq_eq_false_iff_ne.mpr hs, beq_eq_false_iff_ne.mpr (fun h => hs h.symm)]
        simp
    · rw [show bucketAdd ((k, ds) :: rest) sig d = (k, ds) :: bucketAdd rest sig d from by
        rw [bucketAdd, if_neg hk]]
      rw [show hasBucket ((k, ds) :: bucketAdd rest sig d) s =
        (k == s || hasBucket (bucketAdd rest sig d) s) from rfl]
      rw [ih, Bool.or_left_comm]

theorem bucketGet_bucketAdd (B : List (String × List Directory)) (sig : String)
    (d : Directory) (s : String) :
    bucketGet (bucketAdd B sig d) s =
      if s = sig then bucketGet B s ++ [d] else bucketGet B s := by
  induction B with
  | nil =>
    rw [show bucketAdd [] sig d = [(sig, [d])] from rfl]
    rw [show bucketGet [(sig, [d])] s = if sig = s then [d] else bucketGet [] s from rfl]
    rw [show bucketGet ([] : List (String × List Directory)) s = [] from rfl]
    by_cases hs : s = sig
    · rw [if_pos hs.symm, if_pos hs, List.nil_append]
    · rw [if_neg (fun h => hs h.symm), if_neg hs]
  | cons kv rest ih =>
    obtain ⟨k, ds⟩ := kv
    by_cases hk : k = sig
    · subst hk
      rw [show bucketAdd ((k, ds) :: rest) k d = (k, ds ++ [d]) :: rest from by
        rw [bucketAdd, if_pos rfl]]
      rw [show bucketGet ((k, ds ++ [d]) :: rest) s =
        if k = s then ds ++ [d] else bucketGet rest s from rfl]
      rw [show bucketGet ((k, ds) :: rest) s =
        if k = s then ds else bucketGet rest s from rfl]
      by_cases hs : k = s
      · rw [if_pos hs, if_pos hs.symm, if_pos hs]
      · rw [if_neg hs, if_neg (fun h => hs h.symm), if_neg hs]
    · rw [show bucketAdd ((k, ds) :: rest) sig d = (k, ds) :: bucketAdd rest sig d from by
        rw [bucketAdd, if_neg hk]]
      rw [show bucketGet ((k, ds) :: bucketAdd rest sig d) s =
        if k = s then ds else bucketGet (bucketAdd rest sig d) s from rfl]
      rw [show bucketGet ((k, ds) :: rest) s =
        if k = s then ds else bucketGet rest s from rfl]
      by_cases hs : k = s
      · have hss : ¬ s = sig := fun h => hk (hs.trans h)
        rw [if_pos hs, if_neg hss, if_pos hs]
      · rw [if_neg hs, if_neg hs, ih]

theorem firstSeenFrom_congr {seen₁ seen₂ : List String}
    (h : ∀ x, x ∈ seen₁ ↔ x ∈ seen₂) (l : List String) :
    firstSeenFrom seen₁ l = firstSeenFrom seen₂ l := by
  induction l generalizing seen₁ seen₂ with
  | nil => rfl
  | cons s rest ih =>
    by_cases hs : s ∈ seen₁
    · rw [firstSeenFrom, if_pos hs, firstSeenFrom, if_pos ((h s).mp hs)]
      exact ih h
    · rw [firstSeenFrom, if_neg hs, firstSeenFrom, if_neg (fun hc => hs ((h s).mpr hc))]
      rw [@ih (s :: seen₁) (s :: seen₂) (by intro x; simp [h x])]

theorem mem_firstSeenFrom {seen : List String} {l : List String} {s : String}
    (h : s ∈ firstSeenFrom seen l) : s ∉ seen := by
  induction l generalizing seen with
  | nil => simp [firstSeenFrom] at h
  | cons x rest ih =>
    by_cases hx : x ∈ seen
    · rw [firstSeenFrom, if_pos hx] at h
      exact ih h
    · rw [firstSeenFrom, if_neg hx] at h
      rcases List.mem_cons.mp h with rfl | h
      · exact hx
      · intro hc
        exact ih h (List.mem_cons_of_mem _ hc)

theorem hasBucket_bucketAdd_iff (B : List (String × List Directory)) (sig : String)
    (d : Directory) (s : String) :
    hasBucket (bucketAdd B sig d) s = true ↔ (s = sig ∨ hasBucket B s = true) := by
  rw [hasBucket_bucketAdd, Bool.or_eq_true, beq_iff_eq]

theorem groupFold_order : ∀ (ds : List (Option Directory))
    (B : List (String × List Directory)) (O : List String),
    (∀ s, hasBucket B s = true ↔ s ∈ O) →
    (groupFold (B, O) ds).2 = O ++ firstSeenFrom O ((ds.filterMap id).map sigOf) := by
  intro ds
  induction ds with
  | nil =>
    intro B O _
    simp [groupFold, firstSeenFrom]
  | cons o rest ih =>
    intro B O hinv
    cases o with
    | none =>
      rw [show groupFold (B, O) (none :: rest) = groupFold (B, O) rest from rfl]
      rw [ih B O hinv]
      rfl
    | some d =>
      rw [show groupFold (B, O) (some d :: rest) =
        groupFold (bucketAdd B (sigOf d) d,
          if hasBucket B (sigOf d) then O else O ++ [sigOf d]) rest from rfl]
      rw [show ((some d :: rest).filterMap id).map sigOf =
        sigOf d :: (rest.filterMap id).map sigOf from rfl]
      by_cases hmem : sigOf d ∈ O
      · rw [(hinv (sigOf d)).mpr hmem]
        simp only [if_true]
        rw [ih (bucketAdd B (sigOf d) d) O (by
          intro s
          rw [hasBucket_bucketAdd_iff]
          constructor
          · rintro (rfl | hs)
            · exact hmem
            · exact (hinv s).mp hs
          · intro hs
            exact Or.inr ((hinv s).mpr hs))]
        rw [firstSeenFrom, if_pos hmem]
      · have hb : hasBucket B (sigOf d) = false := by
          rcases hh : hasBucket B (sigOf d) with _ | _
          · rfl
          · exact absurd ((hinv (sigOf d)).mp hh) hmem
        rw [hb]
        simp only [Bool.false_eq_true, if_false]
        rw [ih (bucketAdd B (sigOf d) d) (O ++ [sigOf d]) (by
          intro s
          rw [hasBucket_bucketAdd_iff]
          simp only [List.mem_append, List.mem_singleton]
          constructor
          · rintro (rfl | hs)
            · exact Or.inr rfl
            · exact Or.inl ((hinv s).mp hs)
          · rintro (hs | rfl)
            · exact Or.inr ((hinv s).mpr hs)
            · exact Or.inl rfl)]
        rw [firstSeenFrom, if_neg hmem]
        rw [List.append_assoc, List.singleton_append]
        rw [@firstSeenFrom_congr (O ++ [sigOf d]) (sigOf d :: O)
          (by intro x; simp [or_comm]) ((rest.filterMap id).map sigOf)]

theorem groupFold_buckets : ∀ (ds : List (Option Directory))
    (B : List (String × List Directory)) (O : List String) (s : String),
    bucketGet (groupFold (B, O) ds).1 s =
      bucketGet B s ++ (ds.filterMap id).filter (fun d => sigOf d == s) := by
  intro ds
  induction ds with
  | nil =>
    intro B O s
    simp [groupFold]
  | cons o rest ih =>
    intro B O s
    cases o with
    | none =>
      rw [show groupFold (B, O) (none :: rest) = groupFold (B, O) rest from rfl, ih]
      rfl
    | some d =>
      rw [show groupFold (B, O) (some d :: rest) =
        groupFold (bucketAdd B (sigOf d) d,
          if hasBucket B (sigOf d) then O else O ++ [sigOf d]) rest from rfl]
      rw [ih, bucketGet_bucketAdd]
      rw [show (some d :: rest).filterMap id = d :: rest.filterMap id from rfl]
      rw [List.filter_cons]
      by_cases hs : s = sigOf d
      · rw [if_pos hs, if_pos (by rw [hs]; exact beq_self_eq_true _)]
        rw [List.append_assoc, List.singleton_append]
      · rw [if_neg hs, if_neg (by
          intro h
          exact hs (beq_iff_eq.mp h).symm)]

theorem groupIdentical_eq (ds : List (Option Directory)) :
    GroupIdentical ds = (firstSeen ((ds.filterMap id).map sigOf)).map
      (fun s => ⟨s, (ds.filterMap id).filter (fun d => sigOf d == s)⟩) := by
  rw [show GroupIdentical ds = (groupFold ([], []) ds).2.map
    (fun sig => ⟨sig, bucketGet (groupFold ([], []) ds).1 sig⟩) from rfl]
  rw [groupFold_order ds [] [] (by intro s; simp [hasBucket])]
  rw [List.nil_append]
  rw [show firstSeenFrom [] ((ds.filterMap id).map sigOf) =
    firstSeen ((ds.filterMap id).map sigOf) from rfl]
  apply List.map_congr_left
  intro s _
  rw [groupFold_buckets ds [] [] s]
  rw [show bucketGet ([] : List (String × List Directory)) s = [] from rfl]
  rw [List.nil_append]

/-- First-seen partition of a list of strings and the lemma that filtering on
the seen head equals recursing on the residue. -/
theorem firstSeenFrom_filter (l : List String) (seen : List String) (s : String) :
    firstSeenFrom (s :: seen) l = firstSeenFrom seen (l.filter (fun x => !(x == s))) := by
  induction l generalizing seen with
  | nil => rfl
  | cons x rest ih =>
    by_cases hxs : x = s
    · subst hxs
      rw [firstSeenFrom, if_pos (List.mem_cons_self x seen)]
      rw [List.filter_cons, if_neg (by simp)]
      exact ih seen
    · rw [List.filter_cons, if_pos (by simp [hxs])]
      by_cases hx : x ∈ seen
      · rw [firstSeenFrom, if_pos (List.mem_cons_of_mem _ hx), firstSeenFrom, if_pos hx]
        exact ih seen
      · rw [firstSeenFrom, if_neg (by
          intro hc
          rcases List.mem_cons.mp hc with h | h
          · exact hxs h
          · exact hx h)]
        rw [firstSeenFrom, if_neg hx]
        rw [@firstSeenFrom_congr (x :: s :: seen) (s :: x :: seen)
          (by intro y; constructor <;> (intro h; simp at h ⊢; tauto)) rest]
        rw [ih (x :: seen)]

theorem join_groups_perm : ∀ (l : List Directory),
    (((firstSeen (l.map sigOf)).map
      (fun s => l.filter (fun d => sigOf d == s))).flatten).Perm l
  | [] => by simp [firstSeen, firstSeenFrom]
  | d :: t => by
    have ihp := join_groups_perm (t.filter (fun x => !(sigOf x == sigOf d)))
    have hcomm : (t.map sigOf).filter (fun x => !(x == sigOf d)) =
        (t.filter (fun x => !(sigOf x == sigOf d))).map sigOf := by
      rw [List.filter_map]
      rfl
    rw [show (d :: t).map sigOf = sigOf d :: t.map sigOf from rfl]
    rw [show firstSeen (sigOf d :: t.map sigOf) =
      sigOf d :: firstSeenFrom [sigOf d] (t.map sigOf) from by
        rw [firstSeen, firstSeenFrom, if_neg (by simp)]]
    rw [firstSeenFrom_filter (t.map sigOf) [] (sigOf d)]
    rw [hcomm]
    rw [show firstSeenFrom [] ((t.filter (fun x => !(sigOf x == sigOf d))).map sigOf) =
      firstSeen ((t.filter (fun x => !(sigOf x == sigOf d))).map sigOf) from rfl]
    rw [List.map_cons, List.flatten_cons]
    rw [List.filter_cons, if_pos (by simp)]
    have hgroups : (firstSeen ((t.filter (fun x => !(sigOf x == sigOf d))).map sigOf)).map
        (fun s => (d :: t).filter (fun x => sigOf x == s)) =
      (firstSeen ((t.filter (fun x => !(sigOf x == sigOf d))).map sigOf)).map
        (fun s => (t.filter (fun x => !(sigOf x == sigOf d))).filter
          (fun x => sigOf x == s)) := by
      apply List.map_congr_left
      intro s hs
      have hne : s ∉ [sigOf d] := by
        have h1 : s ∈ firstSeenFrom []
            ((t.filter (fun x => !(sigOf x == sigOf d))).map sigOf) := hs
        rw [← hcomm, ← firstSeenFrom_filter (t.map sigOf) [] (sigOf d)] at h1
        exact mem_firstSeenFrom h1
      have hnes : ¬ sigOf d = s := by
        intro h
        exact hne (by simp [h])
      have hsd : ¬ s = sigOf d := fun h => hnes h.symm
      rw [List.filter_cons, if_neg (by simpa using hnes)]
      rw [List.filter_filter]
      apply List.filter_congr
      intro x _
      by_cases hx : sigOf x = s
      · have hxd : ¬ sigOf x = sigOf d := fun h => hnes (h.symm.trans hx)
        simp [hx, hxd, hsd]
      · simp [hx]
    rw [hgroups]
    refine List.Perm.cons d ?_
    refine ((ihp.append_left (t.filter (fun x => sigOf x == sigOf d))).trans ?_)
    have := List.filter_append_perm (fun x => sigOf x == sigOf d) t
    simpa using this
termination_by l => l.length
decreasing_by
  simp only [List.length_cons]
  exact Nat.lt_succ_of_le (List.length_filter_le _ _)

/-- C6: grouping partitions siblings by (fallback-completed) signature
equality: the groups appear in order of first occurrence of each distinct
signature — never sorted by signature value or frequency — and each group
lists its members in original sibling order (each group is the
order-preserving filter of the input by its signature); for siblings
`[A, B, C, D]` with signatures `[s1, s2, s1, s1]` the result is exactly
`{s1: [A, C, D]}` then `{s2: [B]}`.  For a node with a nonempty signature
the grouping key is the signature itself. -/
theorem c6_grouping :
    (∀ dirs : List Directory,
      GroupIdentical (dirs.map some) =
        (firstSeen (dirs.map sigOf)).map
          (fun s => ⟨s, dirs.filter (fun d => sigOf d == s)⟩)) ∧
    (∀ d : Directory, d.signature ≠ "" → sigOf d = d.signature) ∧
    GroupIdentical [some (exDir "A" "s1"), some (exDir "B" "s2"),
        some (exDir "C" "s1"), some (exDir "D" "s1")] =
      [⟨"s1", [exDir "A" "s1", exDir "C" "s1", exDir "D" "s1"]⟩,
        ⟨"s2", [exDir "B" "s2"]⟩] := by
  refine ⟨?_, ?_, ?_⟩
  · intro dirs
    rw [groupIdentical_eq]
    rw [show (dirs.map some).filterMap id = dirs from by simp]
  · intro d h
    rw [sigOf, if_neg h]
  · rfl

/-- Witness for C6 (the second conjunct carries a hypothesis): a node with a
nonempty signature keys by that signature, and the concrete four-sibling
scenario evaluates as claimed. -/
theorem c6_grouping_witness : sigOf (exDir "A" "s1") = "s1" :=
  c6_grouping.2.1 (exDir "A" "s1") (by decide)

/-- C10 counterexample: with the nil-free input `[a(s1), b(s2), a2(s1)]` the
concatenation of the groups' members is `[a, a2, b]`, which is not the
subsequence `[a, b, a2]` of non-nil inputs — grouping reorders elements of
interleaved signature groups — so "the concatenation of all groups' members
is exactly the subsequence of non-nil inputs" fails as a statement about
sequences. -/
theorem c10_counterexample :
    (((GroupIdentical [some (exDir "a" "s1"), some (exDir "b" "s2"),
          some (exDir "a2" "s1")]).map DirGroup.members).flatten).map Directory.name =
        ["a", "a2", "b"] ∧
      (([some (exDir "a" "s1"), some (exDir "b" "s2"),
          some (exDir "a2" "s1")].filterMap id).map Directory.name) = ["a", "b", "a2"] ∧
      ((GroupIdentical [some (exDir "a" "s1"), some (exDir "b" "s2"),
          some (exDir "a2" "s1")]).map DirGroup.members).flatten ≠
        [some (exDir "a" "s1"), some (exDir "b" "s2"),
          some (exDir "a2" "s1")].filterMap id := by
  refine ⟨rfl, rfl, ?_⟩
  intro h
  have h2 := congrArg (List.map Directory.name) h
  exact absurd h2 (by decide)

/-- C10 (amended): `GroupIdentical` silently skips nil entries — its result
on any input equals its result on the nil-free subsequence — it never fails,
a nil appears in no group, and every non-nil element appears exactly once
across all groups: the concatenation of all groups' members is a permutation
of the subsequence of non-nil inputs (not necessarily that subsequence
itself, since members of interleaved signature groups are brought
together). -/
theorem c10_nil_skipping :
    (∀ ds : List (Option Directory),
      GroupIdentical ds = GroupIdentical ((ds.filterMap id).map some)) ∧
    (∀ ds : List (Option Directory),
      (((GroupIdentical ds).map DirGroup.members).flatten).Perm (ds.filterMap id)) := by
  constructor
  · intro ds
    rw [groupIdentical_eq, groupIdentical_eq]
    rw [show ((ds.filterMap id).map some).filterMap id = ds.filterMap id from by simp]
  · intro ds
    rw [groupIdentical_eq]
    rw [List.map_map]
    exact join_groups_perm (ds.filterMap id)

/-- Witness for C8 at a concrete permission-failed subdirectory. -/
theorem c8_permission_error_witness :
    walkDir 1 ⟨0, 0⟩ "r/locked" "locked" 1 (.fail .permission) =
        errorNode "r/locked" "locked" 1 .permission ∧
      signatureForError "r/locked" .permission ≠ signatureForDirectory [] [] := by
  exact ⟨c8_permission_error.1 1 ⟨0, 0⟩ "r/locked" "locked" 1,
    c8_permission_error.2.2.2.2 "r/locked" .permission⟩
